import Mathlib

/-!
# Verification of the ragescanner scan engine, bridge and range parser

Shallow embedding of the core of the `ragescanner` repository:

* `src/types.rs`   — protocol types (`GError`, `ScanStatus`, `ScanResult`,
  `BridgeMessage`, `COMMON_PORTS`, `port_label`);
* `src/scanner.rs` — `Scanner::scan_range`: the per-target probe pipeline and
  the event trace of one scan invocation;
* `src/bridge.rs`  — `Bridge::parse_range` and the bridge command loop;
* the single-precision progress computation of `scanner.rs` line 186,
  `(completed as f32 / total_ips as f32 * 100.0) as u8`, modelled exactly
  (round-to-nearest, ties-to-even, 24-bit significand) over exact rationals.

IPv4 addresses on the scanner side are their `u32` values (`u32::from(ip)`),
as in the source, which iterates `start_u32..=end_u32`.  Channel sends are
assumed delivered (the source discards send errors with `let _ = tx.send`),
the local semaphore is never closed (its error branch is unreachable), and a
spawned task never fails at the task level for the pure pipeline modelled
here, so the `JoinError` branch of `scan_range` is not exercised.
Concurrency is modelled by an oracle `order : List ℕ` giving the completion
order of the admitted per-target tasks; theorems quantify over every
permutation of the admitted targets.
-/

/-- `GError` from `src/types.rs`: Win32 error (code + message) or internal. -/
inductive GError where
  | win32 (code : ℕ) (msg : String)
  | internal (msg : String)
deriving DecidableEq

/-- `ScanStatus` from `src/types.rs`. -/
inductive ScanStatus where
  | scanning
  | online
  | offline
  | systemError (e : GError)
deriving DecidableEq

/-- `ScanResult` from `src/types.rs`; `ip` is the `u32` value of the address. -/
structure ScanResult where
  ip : ℕ
  hostname : Option String
  mac : Option String
  vendor : Option String
  status : ScanStatus
  open_ports : List ℕ
deriving DecidableEq

/-- `ScanResult::new` from `src/types.rs` lines 60-71. -/
def ScanResult.new (ip : ℕ) : ScanResult :=
  { ip := ip, hostname := none, mac := none, vendor := none,
    status := ScanStatus.scanning, open_ports := [] }

/-- An IPv4 address as four octets, for the parser side (`Ipv4Addr`). -/
structure Ipv4 where
  o1 : ℕ
  o2 : ℕ
  o3 : ℕ
  o4 : ℕ
deriving DecidableEq

/-- `u32::from(ipv4)`: big-endian octet value. Also gives `Ipv4Addr`
ordering, which compares octets lexicographically. -/
def Ipv4.toU32 (a : Ipv4) : ℕ :=
  ((a.o1 * 256 + a.o2) * 256 + a.o3) * 256 + a.o4

/-- `BridgeMessage` from `src/types.rs`. -/
inductive BridgeMessage where
  | startScan (s : String)
  | startScanRange (st en : Ipv4)
  | stopScan
  | scanUpdate (r : ScanResult)
  | scanComplete
  | scanCancelled
  | progress (p : ℕ)
  | error (e : GError)
deriving DecidableEq

/-- `COMMON_PORTS` from `src/types.rs` lines 93-110. -/
def COMMON_PORTS : List (ℕ × String) :=
  [(21, "FTP"), (22, "SSH"), (23, "Telnet"), (25, "SMTP"), (53, "DNS"),
   (80, "HTTP"), (110, "POP3"), (135, "RPC/EPMAP"), (139, "NetBIOS"),
   (443, "HTTPS"), (445, "SMB"), (1433, "MSSQL"), (3306, "MySQL"),
   (3389, "RDP"), (5432, "PostgreSQL"), (8080, "HTTP-Alt")]

/-- `port_label` from `src/types.rs` lines 113-119. -/
def port_label (port : ℕ) : String :=
  ((COMMON_PORTS.find? (fun pr => pr.1 = port)).map Prod.snd).getD "Unknown"

/-- `MAX_CONCURRENT_TASKS` from `src/scanner.rs` line 19.  The admission
budget bounds how many pipelines are in flight; it does not affect which
events a scan emits, so the trace semantics below does not depend on it. -/
def MAX_CONCURRENT_TASKS : ℕ := 100

/-- The `NetworkProvider` trait from `src/net.rs` lines 48-59, as a record
of pure probe outcomes for one scan.  `scan_port` is the boolean the probe
eventually produces within its timeout. -/
structure NetworkProvider where
  ping : ℕ → Except GError Bool
  resolve_mac : ℕ → Except GError (Option String)
  resolve_hostname : ℕ → Except GError (Option String)
  resolve_vendor : String → Option String
  scan_port : ℕ → ℕ → Bool

/-- `net_utils.resolve_hostname(ip).unwrap_or(None)` (`scanner.rs` 120, 132). -/
def hostnameOf (net : NetworkProvider) (ip : ℕ) : Option String :=
  match net.resolve_hostname ip with
  | .ok h => h
  | .error _ => none

/-- The `spawn_blocking` closure of `scanner.rs` lines 104-135: ping, then
ARP, with `system_error` short-circuiting.  Returns the tuple
`(is_online, mac, hostname, vendor)` or the captured error. -/
def blockingPart (net : NetworkProvider) (ip : ℕ) :
    Except GError (Bool × Option String × Option String × Option String) :=
  match net.ping ip with
  | .error e => .error e
  | .ok pinged =>
    match net.resolve_mac ip with
    | .ok (some mac) => .ok (true, some mac, hostnameOf net ip, net.resolve_vendor mac)
    | .ok none => .ok (pinged, none, hostnameOf net ip, none)
    | .error e => .error e

/-- The port-scan loop of `scanner.rs` lines 155-161: for each table entry in
order, push the port if the probe answers. -/
def portScan (net : NetworkProvider) (ip : ℕ) : List ℕ :=
  COMMON_PORTS.filterMap (fun pr => if net.scan_port ip pr.1 then some pr.1 else none)

/-- One admitted target pipeline (`scanner.rs` lines 98-180): the emitted
`ScanResult` for `ip`. -/
def runPipeline (net : NetworkProvider) (ip : ℕ) : ScanResult :=
  match blockingPart net ip with
  | .ok (is_online, mac, hostname, vendor) =>
    { ip := ip, hostname := hostname, mac := mac, vendor := vendor,
      status := if is_online then ScanStatus.online else ScanStatus.offline,
      open_ports := if is_online then portScan net ip else [] }
  | .error e => { ScanResult.new ip with status := ScanStatus.systemError e }

/-- Number of targets admitted by the scheduling loop (`scanner.rs` 70-75):
all of them if the token is never cancelled, else only those admitted before
the cancellation check first reads true.  `cancelAfter = some k` means the
token reads cancelled from the k-th admission check onward. -/
def admittedCount (total : ℕ) (cancelAfter : Option ℕ) : ℕ :=
  match cancelAfter with
  | none => total
  | some k => min k total

/-- The admitted target addresses, in admission order (`start_u32..`). -/
def admittedIps (s total : ℕ) (cancelAfter : Option ℕ) : List ℕ :=
  (List.range (admittedCount total cancelAfter)).map (fun j => s + j)

/-- The final `cancel_token.is_cancelled()` read (`scanner.rs` line 190):
true exactly when the token was set at some point during the scan. -/
def finalCancelled (total : ℕ) (cancelAfter : Option ℕ) : Bool :=
  match cancelAfter with
  | none => false
  | some k => decide (k ≤ total)

/-! ## Exact model of the single-precision progress computation

`scanner.rs` line 186 computes
`(completed as f32 / total_ips as f32 * 100.0) as u8`.
Every step is IEEE-754 binary32 round-to-nearest, ties-to-even; the final
cast truncates toward zero and saturates at 255.  All inputs here are
positive and far inside the normal range (no subnormals, no overflow, no
NaN), so rounding a positive rational to binary32 is: scale into
`[2^23, 2^24)`, round the scaled value to the nearest integer (ties to
even), and scale back.  Everything is computed with `ℕ` arithmetic so that
concrete instances evaluate by `decide`. -/

/-- Fuelled floor-log2 (structural, so the kernel can evaluate it). -/
def lg2F : ℕ → ℕ → ℕ
  | 0, _ => 0
  | fuel + 1, n => if 2 ≤ n then lg2F fuel (n / 2) + 1 else 0

/-- `natLg2 n = ⌊log₂ n⌋` for `1 ≤ n`. -/
def natLg2 (n : ℕ) : ℕ := lg2F n n

/-- `⌊log₂ (n / d)⌋` for naturals `n, d ≥ 1`, as an integer. -/
def floorLog2ND (n d : ℕ) : ℤ :=
  let a := natLg2 n
  let b := natLg2 d
  if b ≤ a then
    (if d * 2 ^ (a - b) ≤ n then ((a - b : ℕ) : ℤ) else ((a - b : ℕ) : ℤ) - 1)
  else
    (if d ≤ n * 2 ^ (b - a) then -((b - a : ℕ) : ℤ) else -((b - a : ℕ) : ℤ) - 1)

/-- Round `n / d` (with `d > 0`) to the nearest natural, ties to even. -/
def rndEvenND (n d : ℕ) : ℕ :=
  let q := n / d
  let r := n % d
  if 2 * r < d then q
  else if d < 2 * r then q + 1
  else if q % 2 = 0 then q else q + 1

/-- Round the positive rational `n / d` to binary32, returned as a dyadic
`(a, b)` with value `a / 2^b`.  (`n = 0` gives zero.) -/
def roundF32 (n d : ℕ) : ℕ × ℕ :=
  if n = 0 then (0, 0)
  else
    let e := floorLog2ND n d
    if e ≤ 23 then (rndEvenND (n * 2 ^ (23 - e).toNat) d, (23 - e).toNat)
    else (rndEvenND n (d * 2 ^ (e - 23).toNat) * 2 ^ (e - 23).toNat, 0)

/-- Value of a dyadic pair as a rational. -/
def dyVal (p : ℕ × ℕ) : ℚ := (p.1 : ℚ) / 2 ^ p.2

/-- The `u32` modulus: `total_ips` (`scanner.rs` line 66) and `completed`
(line 183) are `u32` values, so their arithmetic wraps at `2^32`. -/
def U32MOD : ℕ := 4294967296

/-- The progress value of `scanner.rs` line 186:
`(completed as f32 / total_ips as f32 * 100.0) as u8`, computed exactly.
The two `u32 → f32` conversions, the division and the multiplication each
round to nearest (ties to even); the `as u8` cast truncates and saturates.
For the full-range scan `total_ips = end_u32 - start_u32 + 1` wraps to 0:
then `completed as f32 / 0.0` is `+inf` for `completed ≠ 0` (the saturating
cast gives 255) and NaN for the wrapped `completed = 0` (the cast gives 0). -/
def progressVal (completed total : ℕ) : ℕ :=
  if total = 0 then (if completed = 0 then 0 else 255)
  else
    let cf := roundF32 completed 1
    let tf := roundF32 total 1
    let qf := roundF32 (cf.1 * 2 ^ tf.2) (tf.1 * 2 ^ cf.2)
    let pf := roundF32 (qf.1 * 100) (2 ^ qf.2)
    min (pf.1 / 2 ^ pf.2) 255

/-- The join loop of `scanner.rs` lines 183-188 interleaved with the
task-side sends: for each completion (in oracle order) one `ScanUpdate`
followed by the `Progress` for the incremented completion count.  The
counter is a `u32`, so the increment wraps at `2^32` (reached only by a
full-range scan, whose last completion reads `completed = 0`). -/
def joinTrace (net : NetworkProvider) (total : ℕ) : ℕ → List ℕ → List BridgeMessage
  | _, [] => []
  | completed, ip :: rest =>
    BridgeMessage.scanUpdate (runPipeline net ip)
      :: BridgeMessage.progress (progressVal ((completed + 1) % U32MOD) total)
      :: joinTrace net total ((completed + 1) % U32MOD) rest

/-- `Scanner::scan_range` (`src/scanner.rs` lines 40-197) as the list of
`BridgeMessage`s sent on the channel, given the completion-order oracle
`order` (a permutation of `admittedIps`).  `s`, `e` are the `u32` values of
`start_ip`, `end_ip`.  `total_ips` (line 66) is a `u32`: for the full-range
scan `e - s + 1` wraps to 0.  The wrapped value feeds only the progress
computation; the admission loop (`start_u32..=end_u32`) and the final
cancellation read still cover the true `e - s + 1` addresses. -/
def scan_range (net : NetworkProvider) (s e : ℕ) (cancelAfter : Option ℕ)
    (order : List ℕ) : List BridgeMessage :=
  if e < s then [BridgeMessage.error (GError.internal "Invalid IP Range")]
  else
    joinTrace net ((e - s + 1) % U32MOD) 0 order ++
      [if finalCancelled (e - s + 1) cancelAfter then BridgeMessage.scanCancelled
       else BridgeMessage.scanComplete]

/-- Does a message carry a per-target result? -/
def isUpdate : BridgeMessage → Bool
  | .scanUpdate _ => true
  | _ => false

/-- Is a message one of the two terminal events? -/
def isTerminal : BridgeMessage → Bool
  | .scanComplete => true
  | .scanCancelled => true
  | _ => false

/-- Is a message a scan-level abort error? -/
def isErrorMsg : BridgeMessage → Bool
  | .error _ => true
  | _ => false

/-- The address of a `ScanUpdate`, if any. -/
def updateIp : BridgeMessage → Option ℕ
  | .scanUpdate r => some r.ip
  | _ => none

/-- The payload of a `Progress`, if any. -/
def progressOf : BridgeMessage → Option ℕ
  | .progress p => some p
  | _ => none

/-! ## Range parser (`Bridge::parse_range`, `src/bridge.rs` lines 89-127)

Strings are handled as `List Char`.  `Ipv4Addr::from_str` accepts exactly
four dot-separated decimal octets, each 1-3 digits, value at most 255, with
no leading zeros; `str::parse::<u8>` accepts an optional leading plus sign
followed by decimal digits whose value fits in a byte. -/

/-- Decimal value of a digit string (callers ensure all chars are digits). -/
def digitsToNat (s : List Char) : ℕ :=
  s.foldl (fun a c => a * 10 + (c.toNat - 48)) 0

/-- `str::split(c)`: the list of (possibly empty) chunks between occurrences
of `c`; never empty. -/
def splitOn (c : Char) : List Char → List (List Char)
  | [] => [[]]
  | x :: xs =>
    if x = c then [] :: splitOn c xs
    else
      match splitOn c xs with
      | [] => [[x]]
      | h :: t => (x :: h) :: t

/-- `str::trim`: strip whitespace from both ends. -/
def trim (s : List Char) : List Char :=
  ((s.dropWhile Char.isWhitespace).reverse.dropWhile Char.isWhitespace).reverse

/-- One octet as parsed inside `Ipv4Addr::from_str`: 1-3 digits, no leading
zero (except `0` itself), value at most 255. -/
def parseOctet (s : List Char) : Option ℕ :=
  if s = [] then none
  else if s.all Char.isDigit = false then none
  else if 3 < s.length then none
  else if 1 < s.length ∧ s.head? = some '0' then none
  else if digitsToNat s ≤ 255 then some (digitsToNat s) else none

/-- `Ipv4Addr::from_str`. -/
def parseIpv4 (s : List Char) : Option Ipv4 :=
  match splitOn '.' s with
  | [p1, p2, p3, p4] =>
    match parseOctet p1, parseOctet p2, parseOctet p3, parseOctet p4 with
    | some x1, some x2, some x3, some x4 => some ⟨x1, x2, x3, x4⟩
    | _, _, _, _ => none
  | _ => none

/-- `str::parse::<u8>`: optional leading plus sign, then decimal digits,
value at most 255. -/
def parseU8 (s : List Char) : Option ℕ :=
  let t := if s.head? = some '+' then s.tail else s
  if t = [] then none
  else if t.all Char.isDigit = false then none
  else if digitsToNat t ≤ 255 then some (digitsToNat t) else none

/-- Display form of an address, for the parser's error messages. -/
def ipStr (a : Ipv4) : String :=
  toString a.o1 ++ "." ++ toString a.o2 ++ "." ++ toString a.o3 ++ "." ++ toString a.o4

/-- The end-before-start error message of `parse_range`. -/
def endLtMsg (en st : Ipv4) : String :=
  "End IP (" ++ ipStr en ++ ") cannot be less than Start IP (" ++ ipStr st ++ ")"

/-- `Bridge::parse_range` (`src/bridge.rs` lines 89-127): split on the dash,
parse the trimmed start as an address, then the trimmed second chunk as a
full address or as a replacement last octet; reject `end < start`.  Chunks
after the second are ignored, as in the source (`parts[1]`). -/
def parse_range (s : List Char) : Except String (Ipv4 × Ipv4) :=
  match splitOn '-' s with
  | [] => .error "Empty range"
  | p0 :: rest =>
    match parseIpv4 (trim p0) with
    | none => .error ("Invalid Start IP: \x27" ++ String.mk (trim p0) ++ "\x27")
    | some start =>
      match rest with
      | [] => .ok (start, start)
      | p1 :: _ =>
        match parseIpv4 (trim p1) with
        | some en =>
          if en.toU32 < start.toU32 then .error (endLtMsg en start)
          else .ok (start, en)
        | none =>
          match parseU8 (trim p1) with
          | some oct =>
            let en : Ipv4 := ⟨start.o1, start.o2, start.o3, oct⟩
            if en.toU32 < start.toU32 then .error (endLtMsg en start)
            else .ok (start, en)
          | none => .error ("Invalid End IP or Octet: \x27" ++ String.mk (trim p1) ++ "\x27")

/-- What one iteration of the bridge command loop does with a command. -/
inductive BridgeAction where
  | spawnScan (st en : Ipv4)
  | emitError (e : GError)
  | noAction
deriving DecidableEq

/-- The body of the bridge command loop, `src/bridge.rs` lines 66-80:
`if let BridgeMessage::StartScan(range) = msg { ... }`.  A `StartScan` is
parsed and either spawns `scan_range(start, end)` or emits an error; every
other command — including `StopScan` — is dropped without any effect (no
cancellation token exists in this loop; `scan_range` is invoked without
one). -/
def bridgeHandleCmd (msg : BridgeMessage) : BridgeAction :=
  match msg with
  | .startScan r =>
    match parse_range r.toList with
    | .ok (st, en) => .spawnScan st en
    | .error m => .emitError (GError.internal m)
  | _ => .noAction

/-! ### Concrete providers used by witnesses -/

/-- `MockNet` from `src/net.rs` lines 203-240; `3232235777` and `3232235778`
are the `u32` values of `192.168.1.1` and `192.168.1.2`. -/
def mockNet : NetworkProvider where
  ping := fun ip =>
    if ip = 3232235777 then .ok true
    else if ip = 3232235778 then .error (GError.internal "Simulated Failure")
    else .ok false
  resolve_mac := fun ip =>
    if ip = 3232235777 then .ok (some "00:11:22:33:44:55") else .ok none
  resolve_hostname := fun ip =>
    if ip = 3232235777 then .ok (some "mock-host") else .ok none
  resolve_vendor := fun _ => some "Mock Vendor"
  scan_port := fun _ port => port == 80

/-- A provider for which every host is silent. -/
def net0 : NetworkProvider where
  ping := fun _ => .ok false
  resolve_mac := fun _ => .ok none
  resolve_hostname := fun _ => .ok none
  resolve_vendor := fun _ => none
  scan_port := fun _ _ => false

/-- A fake provider whose port probe answers only on 22 and 443. -/
def netPorts : NetworkProvider where
  ping := fun _ => .ok true
  resolve_mac := fun _ => .ok none
  resolve_hostname := fun _ => .ok none
  resolve_vendor := fun _ => none
  scan_port := fun _ p => p == 22 || p == 443

/-- A provider whose link-layer resolution call itself fails. -/
def netArpErr : NetworkProvider where
  ping := fun _ => .ok false
  resolve_mac := fun _ => .error (GError.win32 31 "SendARP failed")
  resolve_hostname := fun _ => .ok none
  resolve_vendor := fun _ => none
  scan_port := fun _ _ => true

/-- Decidable equality for `Except`, used to evaluate parser results. -/
instance exceptDecEq {ε α : Type} [DecidableEq ε] [DecidableEq α] : DecidableEq (Except ε α)
  | .ok a, .ok b =>
    if h : a = b then .isTrue (by rw [h]) else .isFalse (fun hc => h (Except.ok.inj hc))
  | .ok _, .error _ => .isFalse (fun hc => Except.noConfusion hc)
  | .error _, .ok _ => .isFalse (fun hc => Except.noConfusion hc)
  | .error e, .error f =>
    if h : e = f then .isTrue (by rw [h]) else .isFalse (fun hc => h (Except.error.inj hc))

/-! ## Trace lemmas -/

lemma runPipeline_ip (net : NetworkProvider) (ip : ℕ) : (runPipeline net ip).ip = ip := by
  unfold runPipeline
  cases h : blockingPart net ip with
  | ok t => obtain ⟨o, m, hn, v⟩ := t; rfl
  | error e => rfl

lemma mem_joinTrace (net : NetworkProvider) (total : ℕ) :
    ∀ (order : List ℕ) (k : ℕ) (m : BridgeMessage), m ∈ joinTrace net total k order →
      (∃ ip ∈ order, m = BridgeMessage.scanUpdate (runPipeline net ip)) ∨
        ∃ p, m = BridgeMessage.progress p
  | [], _, m => by simp [joinTrace]
  | ip :: rest, k, m => by
    intro h
    simp only [joinTrace, List.mem_cons] at h
    rcases h with h | h | h
    · exact .inl ⟨ip, by simp, h⟩
    · exact .inr ⟨_, h⟩
    · rcases mem_joinTrace net total rest ((k + 1) % U32MOD) m h with ⟨ip2, hip, he⟩ | hp
      · exact .inl ⟨ip2, by simp [hip], he⟩
      · exact .inr hp

lemma joinTrace_filter_isUpdate (net : NetworkProvider) (total : ℕ) :
    ∀ (order : List ℕ) (k : ℕ),
    (joinTrace net total k order).filter isUpdate
      = order.map (fun ip => BridgeMessage.scanUpdate (runPipeline net ip))
  | [], _ => rfl
  | ip :: rest, k => by
    simp [joinTrace, List.filter_cons, isUpdate,
      joinTrace_filter_isUpdate net total rest ((k + 1) % U32MOD)]

lemma joinTrace_filterMap_updateIp (net : NetworkProvider) (total : ℕ) :
    ∀ (order : List ℕ) (k : ℕ),
    (joinTrace net total k order).filterMap updateIp = order
  | [], _ => rfl
  | ip :: rest, k => by
    simp [joinTrace, updateIp, runPipeline_ip,
      joinTrace_filterMap_updateIp net total rest ((k + 1) % U32MOD)]

lemma joinTrace_filterMap_progressOf (net : NetworkProvider) (total : ℕ) :
    ∀ (order : List ℕ) (k : ℕ),
    (joinTrace net total k order).filterMap progressOf
      = (List.range order.length).map (fun j => progressVal ((k + j + 1) % U32MOD) total)
  | [], _ => rfl
  | ip :: rest, k => by
    have ih := joinTrace_filterMap_progressOf net total rest ((k + 1) % U32MOD)
    have harg : ∀ j : ℕ,
        ((k + 1) % U32MOD + j + 1) % U32MOD = (k + (j + 1) + 1) % U32MOD := by
      intro j
      have h1 : (k + 1) % U32MOD + j + 1 = (k + 1) % U32MOD + (j + 1) := by omega
      rw [h1, Nat.mod_add_mod]
      congr 1
      omega
    simp [joinTrace, progressOf, ih, List.range_succ_eq_map, List.map_map,
      Function.comp_def, harg]

lemma scan_range_eq (net : NetworkProvider) (s e : ℕ) (cancelAfter : Option ℕ)
    (order : List ℕ) (h : s ≤ e) :
    scan_range net s e cancelAfter order
      = joinTrace net ((e - s + 1) % U32MOD) 0 order ++
        [if finalCancelled (e - s + 1) cancelAfter then BridgeMessage.scanCancelled
         else BridgeMessage.scanComplete] := by
  simp [scan_range, Nat.not_lt.mpr h]

lemma blockingPart_vendor_mac (net : NetworkProvider) (ip : ℕ)
    (o : Bool) (m hn v : Option String)
    (h : blockingPart net ip = .ok (o, m, hn, v)) (hv : v.isSome = true) :
    m.isSome = true := by
  unfold blockingPart at h
  cases hp : net.ping ip with
  | error e => rw [hp] at h; exact Except.noConfusion h
  | ok pinged =>
    rw [hp] at h
    cases hm : net.resolve_mac ip with
    | error e => rw [hm] at h; exact Except.noConfusion h
    | ok mo =>
      rw [hm] at h
      cases mo with
      | some mac =>
        simp only [Except.ok.injEq, Prod.mk.injEq] at h
        obtain ⟨-, h2, -, -⟩ := h
        rw [← h2]
        rfl
      | none =>
        simp only [Except.ok.injEq, Prod.mk.injEq] at h
        obtain ⟨-, -, -, h4⟩ := h
        rw [← h4] at hv
        exact absurd hv (by simp)

lemma pipeline_vendor_mac (net : NetworkProvider) (ip : ℕ)
    (hv : (runPipeline net ip).vendor.isSome = true) :
    (runPipeline net ip).mac.isSome = true := by
  unfold runPipeline at hv ⊢
  cases h : blockingPart net ip with
  | ok t =>
    obtain ⟨o, m, hn, v⟩ := t
    rw [h] at hv
    exact blockingPart_vendor_mac net ip o m hn v h hv
  | error e => rw [h] at hv; exact absurd hv (by simp [ScanResult.new])

/-! ## Claims -/

/-- C2: for every pair of addresses with start > end (as 32-bit integers),
`scan_range` emits exactly one `Error` event (the "Invalid IP Range" abort)
and zero `ScanUpdate` events; no target pipeline is scheduled and no
`Progress` or terminal event is emitted — the whole trace is the single
error, for every provider, cancellation state and completion oracle. -/
theorem c2_invalid_range (net : NetworkProvider) (s e : ℕ) (cancelAfter : Option ℕ)
    (order : List ℕ) (h : e < s) :
    scan_range net s e cancelAfter order
      = [BridgeMessage.error (GError.internal "Invalid IP Range")]
    ∧ ((scan_range net s e cancelAfter order).filter isErrorMsg).length = 1
    ∧ ((scan_range net s e cancelAfter order).filter isUpdate).length = 0
    ∧ (scan_range net s e cancelAfter order).filterMap progressOf = []
    ∧ ((scan_range net s e cancelAfter order).filter isTerminal).length = 0 := by
  have ht : scan_range net s e cancelAfter order
      = [BridgeMessage.error (GError.internal "Invalid IP Range")] := by
    simp [scan_range, h]
  exact ⟨ht, by rw [ht]; rfl, by rw [ht]; rfl, by rw [ht]; rfl, by rw [ht]; rfl⟩

/-- C2 witness: a concrete inverted range produces only the abort error. -/
theorem c2_invalid_range_witness :
    scan_range net0 5 2 none []
      = [BridgeMessage.error (GError.internal "Invalid IP Range")] :=
  (c2_invalid_range net0 5 2 none [] (by decide)).1

/-- C3: for every target whose reachability probe and link-layer resolution
probe both return without a platform error, the emitted result is `Online`
iff the ping answered or the resolution returned an address (resolution
success is authoritative), and `Offline` otherwise. -/
theorem c3_online_iff (net : NetworkProvider) (ip : ℕ) (b : Bool) (m : Option String)
    (hp : net.ping ip = .ok b) (hm : net.resolve_mac ip = .ok m) :
    (runPipeline net ip).status
      = if b = true ∨ m.isSome = true then ScanStatus.online else ScanStatus.offline := by
  cases m with
  | some mac => simp [runPipeline, blockingPart, hp, hm]
  | none => cases b <;> simp [runPipeline, blockingPart, hp, hm]

/-- C3 witness: on `MockNet`, host 192.168.1.1 (ping true, MAC resolved) is
online; host 192.168.1.3 (ping false, no MAC) is offline. -/
theorem c3_online_iff_witness :
    (runPipeline mockNet 3232235777).status = ScanStatus.online
    ∧ (runPipeline mockNet 3232235779).status = ScanStatus.offline := by
  constructor
  · have h := c3_online_iff mockNet 3232235777 true (some "00:11:22:33:44:55") rfl rfl
    simpa using h
  · have h := c3_online_iff mockNet 3232235779 false none rfl rfl
    simpa using h

/-- C6: for every online target the open-port list is exactly the ports of
`COMMON_PORTS` whose probe answered, in table order; in particular a probe
answering only on 443 and 22 yields `[22, 443]`. -/
theorem c6_port_table_order (net : NetworkProvider) (ip : ℕ) (b : Bool) (m : Option String)
    (hp : net.ping ip = .ok b) (hm : net.resolve_mac ip = .ok m)
    (hon : b = true ∨ m.isSome = true) :
    (runPipeline net ip).open_ports
      = COMMON_PORTS.filterMap (fun pr => if net.scan_port ip pr.1 then some pr.1 else none)
    ∧ ((∀ p, net.scan_port ip p = (p == 22 || p == 443)) →
        (runPipeline net ip).open_ports = [22, 443]) := by
  have h1 : (runPipeline net ip).open_ports = portScan net ip := by
    cases m with
    | some mac => simp [runPipeline, blockingPart, hp, hm]
    | none =>
      rcases hon with hb | hi
      · subst hb; simp [runPipeline, blockingPart, hp, hm]
      · exact absurd hi (by simp)
  constructor
  · rw [h1]; rfl
  · intro hall
    have he : net.scan_port ip = fun p => p == 22 || p == 443 := funext hall
    rw [h1]
    unfold portScan
    rw [he]
    decide

/-- C6 witness: the fake provider answering only on 22 and 443 yields the
table-ordered list `[22, 443]`. -/
theorem c6_port_table_order_witness : (runPipeline netPorts 7).open_ports = [22, 443] :=
  (c6_port_table_order netPorts 7 true none rfl rfl (Or.inl rfl)).2 (fun _ => rfl)

/-- C7: a target whose link-layer resolution call itself errors is reported
with status system-error carrying that error, with no MAC, hostname or
vendor and an empty port list; the port-probe phase is never run (the
result does not depend on the port prober at all). -/
theorem c7_resolution_error (net : NetworkProvider) (ip : ℕ) (b : Bool) (err : GError)
    (hp : net.ping ip = .ok b) (hm : net.resolve_mac ip = .error err) :
    runPipeline net ip
      = { ip := ip, hostname := none, mac := none, vendor := none,
          status := ScanStatus.systemError err, open_ports := [] }
    ∧ ∀ f, runPipeline { net with scan_port := f } ip = runPipeline net ip := by
  have hb : blockingPart net ip = .error err := by
    simp [blockingPart, hp, hm]
  constructor
  · simp [runPipeline, hb, ScanResult.new]
  · intro f
    have hb2 : blockingPart { net with scan_port := f } ip = .error err := by
      simp [blockingPart, hp, hm]
    simp [runPipeline, hb, hb2]

/-- C7 witness: a provider whose `resolve_mac` fails yields the
system-error result with zero open ports even though its port probe would
answer on every port. -/
theorem c7_resolution_error_witness :
    runPipeline netArpErr 42
      = { ip := 42, hostname := none, mac := none, vendor := none,
          status := ScanStatus.systemError (GError.win32 31 "SendARP failed"),
          open_ports := [] } :=
  (c7_resolution_error netArpErr 42 false (GError.win32 31 "SendARP failed") rfl rfl).1

/-- C8: the bridge command loop (`src/bridge.rs` lines 66-80) matches only
`StartScan`; a `StopScan` received while a scan is active is dropped with no
effect — no cancellation signal is set (none even exists in this loop, which
invokes `scan_range` without a token), contradicting the documented purpose
of `StopScan`.  This theorem evaluates the loop body at the failing input. -/
theorem c8_stopscan_ignored : bridgeHandleCmd BridgeMessage.stopScan = BridgeAction.noAction :=
  rfl

/-- C10: every `ScanResult` carried by a `ScanUpdate` on the event channel
has a MAC whenever it has a vendor: a vendor name is only attached to a
target whose link-layer address resolved. -/
theorem c10_vendor_implies_mac (net : NetworkProvider) (s e : ℕ) (cancelAfter : Option ℕ)
    (order : List ℕ) (r : ScanResult)
    (hmem : BridgeMessage.scanUpdate r ∈ scan_range net s e cancelAfter order)
    (hv : r.vendor.isSome = true) : r.mac.isSome = true := by
  by_cases h : e < s
  · simp [scan_range, h] at hmem
  · push_neg at h
    rw [scan_range_eq net s e cancelAfter order h] at hmem
    rcases List.mem_append.mp hmem with hm | hm
    · rcases mem_joinTrace net _ order 0 _ hm with ⟨ip, _, he⟩ | ⟨p, he⟩
      · obtain rfl : r = runPipeline net ip := BridgeMessage.scanUpdate.inj he
        exact pipeline_vendor_mac net ip hv
      · exact BridgeMessage.noConfusion he
    · rw [List.mem_singleton] at hm
      split at hm <;> exact BridgeMessage.noConfusion hm

/-- C10 witness: in a one-host scan with `MockNet`, the emitted result for
192.168.1.1 carries a vendor, and the theorem yields that it carries a MAC. -/
theorem c10_vendor_implies_mac_witness :
    (runPipeline mockNet 3232235777).mac.isSome = true :=
  c10_vendor_implies_mac mockNet 3232235777 3232235777 none [3232235777]
    (runPipeline mockNet 3232235777)
    (by rw [scan_range_eq mockNet 3232235777 3232235777 none [3232235777] (le_refl _)]
        simp [joinTrace])
    (by decide)

lemma admittedIps_nodup (s total : ℕ) (cancelAfter : Option ℕ) :
    (admittedIps s total cancelAfter).Nodup :=
  List.Nodup.map (fun a b => by omega) (List.nodup_range _)

lemma admittedIps_none_length (s total : ℕ) : (admittedIps s total none).length = total := by
  simp [admittedIps, admittedCount]

/-- C1: for every range with start ≤ end and a never-cancelled token, the
engine emits exactly `end − start + 1` `ScanUpdate` events — one per address
of the inclusive range, each address exactly once — and exactly one terminal
event, `ScanComplete`, after all of them, with nothing following it.  The
statement holds for every completion order of the admitted pipelines. -/
theorem c1_complete_scan (net : NetworkProvider) (s e : ℕ) (order : List ℕ)
    (h : s ≤ e) (hord : order.Perm (admittedIps s (e - s + 1) none)) :
    ((scan_range net s e none order).filter isUpdate).length = e - s + 1
    ∧ (∀ a : ℕ, ((scan_range net s e none order).filterMap updateIp).count a
        = if s ≤ a ∧ a ≤ e then 1 else 0)
    ∧ ∃ body, scan_range net s e none order = body ++ [BridgeMessage.scanComplete]
        ∧ ∀ m ∈ body, isTerminal m = false := by
  have htr := scan_range_eq net s e none order h
  have hfc : finalCancelled (e - s + 1) none = false := rfl
  rw [hfc] at htr
  simp only [if_neg (by simp : ¬False), Bool.false_eq_true, if_false] at htr
  have hlen : order.length = e - s + 1 := by
    have hl := hord.length_eq
    rwa [admittedIps_none_length] at hl
  refine ⟨?_, ?_, ?_⟩
  · rw [htr, List.filter_append, joinTrace_filter_isUpdate]
    simp [isUpdate, hlen]
  · intro a
    have hfm : (scan_range net s e none order).filterMap updateIp = order := by
      rw [htr, List.filterMap_append, joinTrace_filterMap_updateIp]
      simp [updateIp]
    rw [hfm, hord.count_eq,
      List.count_eq_of_nodup (admittedIps_nodup s (e - s + 1) none)]
    have hmem : a ∈ admittedIps s (e - s + 1) none ↔ s ≤ a ∧ a ≤ e := by
      simp only [admittedIps, admittedCount, List.mem_map, List.mem_range]
      constructor
      · rintro ⟨j, hj, rfl⟩; omega
      · rintro ⟨h1, h2⟩; exact ⟨a - s, by omega, by omega⟩
    by_cases hin : s ≤ a ∧ a ≤ e
    · rw [if_pos (hmem.mpr hin), if_pos hin]
    · rw [if_neg (fun hc => hin (hmem.mp hc)), if_neg hin]
  · refine ⟨joinTrace net ((e - s + 1) % U32MOD) 0 order, htr, ?_⟩
    intro m hm
    rcases mem_joinTrace net _ order 0 m hm with ⟨ip, _, rfl⟩ | ⟨p, rfl⟩ <;> rfl

/-- C1 witness: a concrete three-address scan emits three updates (one per
address) and ends in a lone `ScanComplete`. -/
theorem c1_complete_scan_witness :
    ((scan_range net0 1 3 none (admittedIps 1 3 none)).filter isUpdate).length = 3
    ∧ ((scan_range net0 1 3 none (admittedIps 1 3 none)).filterMap updateIp).count 2 = 1 := by
  have hc := c1_complete_scan net0 1 3 (admittedIps 1 3 none) (by decide) (List.Perm.refl _)
  exact ⟨hc.1, by rw [hc.2.1 2]; decide⟩

/-- C5: if the cancellation signal is first observed after exactly `k`
targets have been admitted (and before the scan ends, `k ≤ total`), then
only those `k` targets are admitted, the scan emits exactly `k`
`ScanUpdate` events — the admitted pipelines all complete and report — and
the terminal event is `ScanCancelled`, never `ScanComplete`, with nothing
after it. -/
theorem c5_cancellation (net : NetworkProvider) (s e k : ℕ) (order : List ℕ)
    (h : s ≤ e) (hk : k ≤ e - s + 1)
    (hord : order.Perm (admittedIps s (e - s + 1) (some k))) :
    (admittedIps s (e - s + 1) (some k)).length = k
    ∧ ((scan_range net s e (some k) order).filter isUpdate).length = k
    ∧ ∃ body, scan_range net s e (some k) order = body ++ [BridgeMessage.scanCancelled]
        ∧ ∀ m ∈ body, isTerminal m = false := by
  have hadm : (admittedIps s (e - s + 1) (some k)).length = k := by
    simp [admittedIps, admittedCount]
    omega
  have htr := scan_range_eq net s e (some k) order h
  have hfc : finalCancelled (e - s + 1) (some k) = true := by
    simp [finalCancelled]
    omega
  rw [hfc] at htr
  simp only [if_pos] at htr
  have hlen : order.length = k := by
    have hl := hord.length_eq
    rwa [hadm] at hl
  refine ⟨hadm, ?_, ?_⟩
  · rw [htr, List.filter_append, joinTrace_filter_isUpdate]
    simp [isUpdate, hlen]
  · refine ⟨joinTrace net ((e - s + 1) % U32MOD) 0 order, htr, ?_⟩
    intro m hm
    rcases mem_joinTrace net _ order 0 m hm with ⟨ip, _, rfl⟩ | ⟨p, rfl⟩ <;> rfl

/-- C5 witness: cancelling a three-address scan after one admission yields
one update and a trailing `ScanCancelled`. -/
theorem c5_cancellation_witness :
    ((scan_range net0 1 3 (some 1) (admittedIps 1 3 (some 1))).filter isUpdate).length = 1
    ∧ ∃ body, scan_range net0 1 3 (some 1) (admittedIps 1 3 (some 1))
        = body ++ [BridgeMessage.scanCancelled] := by
  have hc := c5_cancellation net0 1 3 1 (admittedIps 1 3 (some 1)) (by decide) (by decide)
    (List.Perm.refl _)
  exact ⟨hc.2.1, hc.2.2.elim (fun b hb => ⟨b, hb.1⟩)⟩

/-! ## Parser lemmas and C9 -/

lemma splitOn_ne_nil (c : Char) : ∀ s : List Char, splitOn c s ≠ []
  | [] => by simp [splitOn]
  | x :: xs => by
    by_cases hx : x = c
    · simp [splitOn, hx]
    · cases hsp : splitOn c xs with
      | nil => simp [splitOn, hx, hsp]
      | cons h t => simp [splitOn, hx, hsp]

lemma splitOn_of_not_mem (c : Char) : ∀ s : List Char, c ∉ s → splitOn c s = [s]
  | [], _ => rfl
  | x :: xs, h => by
    have hx : ¬x = c := fun he => h (by rw [← he]; exact List.mem_cons_self x xs)
    have hxs : c ∉ xs := fun hm => h (List.mem_cons_of_mem x hm)
    simp [splitOn, hx, splitOn_of_not_mem c xs hxs]

lemma splitOn_append (c : Char) : ∀ as bs : List Char, c ∉ as →
    splitOn c (as ++ c :: bs) = as :: splitOn c bs
  | [], bs, _ => by simp [splitOn]
  | x :: as2, bs, h => by
    have hx : ¬x = c := fun he => h (by rw [← he]; exact List.mem_cons_self x as2)
    have has : c ∉ as2 := fun hm => h (List.mem_cons_of_mem x hm)
    have ih := splitOn_append c as2 bs has
    simp [splitOn, hx, ih]

lemma mem_splitOn (c x : Char) : ∀ s : List Char, x ∈ s →
    x = c ∨ ∃ p ∈ splitOn c s, x ∈ p
  | [] => by simp
  | y :: ys => fun hm => by
    by_cases hy : y = c
    · rcases List.mem_cons.mp hm with rfl | hm2
      · exact .inl hy
      · rcases mem_splitOn c x ys hm2 with h | ⟨p, hp, hxp⟩
        · exact .inl h
        · refine .inr ⟨p, ?_, hxp⟩
          simp only [splitOn, if_pos hy, List.mem_cons]
          exact .inr hp
    · cases hsp : splitOn c ys with
      | nil => exact absurd hsp (splitOn_ne_nil c ys)
      | cons hd tl =>
        rcases List.mem_cons.mp hm with rfl | hm2
        · refine .inr ⟨x :: hd, ?_, List.mem_cons_self _ _⟩
          simp [splitOn, hy, hsp]
        · rcases mem_splitOn c x ys hm2 with h | ⟨p, hp, hxp⟩
          · exact .inl h
          · rw [hsp] at hp
            rcases List.mem_cons.mp hp with rfl | hp2
            · refine .inr ⟨y :: p, ?_, List.mem_cons_of_mem y hxp⟩
              simp [splitOn, hy, hsp]
            · refine .inr ⟨p, ?_, hxp⟩
              simp only [splitOn, if_neg hy, hsp, List.mem_cons]
              exact .inr hp2

lemma dropWhile_eq_self_of (p : Char → Bool) : ∀ l : List Char,
    (∀ x ∈ l, p x = false) → l.dropWhile p = l
  | [], _ => rfl
  | x :: xs, h => by
    have hx : p x = false := h x (List.mem_cons_self x xs)
    simp [List.dropWhile_cons, hx]

lemma trim_eq_self (s : List Char) (h : ∀ x ∈ s, x.isWhitespace = false) :
    trim s = s := by
  unfold trim
  rw [dropWhile_eq_self_of _ s h,
    dropWhile_eq_self_of _ s.reverse (fun x hx => h x (List.mem_reverse.mp hx))]
  exact List.reverse_reverse s

lemma isDigit_not_ws (ch : Char) (h : ch.isDigit = true) : ch.isWhitespace = false := by
  by_contra hws
  simp only [Bool.not_eq_false] at hws
  simp only [Char.isWhitespace, Bool.or_eq_true, decide_eq_true_eq] at hws
  rcases hws with (((rfl | rfl) | rfl) | rfl) <;> exact absurd h (by decide)

lemma parseOctet_digits (s : List Char) (v : ℕ) (h : parseOctet s = some v) :
    ∀ x ∈ s, x.isDigit = true := by
  unfold parseOctet at h
  split_ifs at h with h1 h2 h3 h4 h5 <;> try exact Option.noConfusion h
  intro x hx
  have hall : s.all Char.isDigit = true := by simpa using h2
  exact List.all_eq_true.mp hall x hx

lemma parseIpv4_chars (s : List Char) (a : Ipv4) (h : parseIpv4 s = some a) :
    ∀ x ∈ s, x.isDigit = true ∨ x = '.' := by
  unfold parseIpv4 at h
  split at h
  case h_2 => exact absurd h (by simp)
  case h_1 p1 p2 p3 p4 hsp =>
    intro x hx
    rcases mem_splitOn '.' x s hx with hdot | ⟨p, hp, hxp⟩
    · exact .inr hdot
    · left
      rw [hsp] at hp
      split at h
      case h_2 => exact absurd h (by simp)
      case h_1 x1 x2 x3 x4 e1 e2 e3 e4 =>
        simp only [List.mem_cons, List.mem_singleton, List.not_mem_nil, or_false] at hp
        rcases hp with rfl | rfl | rfl | rfl
        · exact parseOctet_digits p x1 e1 x hxp
        · exact parseOctet_digits p x2 e2 x hxp
        · exact parseOctet_digits p x3 e3 x hxp
        · exact parseOctet_digits p x4 e4 x hxp

lemma parseU8_chars (s : List Char) (n : ℕ) (h : parseU8 s = some n) :
    ∀ x ∈ s, x.isDigit = true ∨ x = '+' := by
  simp only [parseU8] at h
  by_cases hplus : s.head? = some '+'
  · simp only [if_pos hplus] at h
    cases s with
    | nil => simp at hplus
    | cons c cs =>
      have hc : c = '+' := by simpa using hplus
      split_ifs at h with h1 h2 h3 <;> try exact Option.noConfusion h
      intro x hx
      rcases List.mem_cons.mp hx with rfl | hx2
      · exact .inr hc
      · have hall : cs.all Char.isDigit = true := by simpa using h2
        exact .inl (List.all_eq_true.mp hall x hx2)
  · simp only [if_neg hplus] at h
    split_ifs at h with h1 h2 h3 <;> try exact Option.noConfusion h
    intro x hx
    have hall : s.all Char.isDigit = true := by simpa using h2
    exact .inl (List.all_eq_true.mp hall x hx)

lemma parseU8_not_ipv4 (s : List Char) (n : ℕ) (h : parseU8 s = some n) :
    parseIpv4 s = none := by
  have hd : ('.' : Char) ∉ s := by
    intro hm
    rcases parseU8_chars s n h '.' hm with h1 | h1
    · exact absurd h1 (by decide)
    · exact absurd h1 (by decide)
  unfold parseIpv4
  rw [splitOn_of_not_mem '.' s hd]

/-- C9: for every input of the form `A-N` where `A` parses as an IPv4
address and `N` parses as a single byte, `parse_range` returns
`(A, A with its last octet replaced by N)` when that end address is not
below `A`, and the end-below-start error — never a swapped pair — when it
is. -/
theorem c9_parse_octet_form (sA sN : List Char) (a : Ipv4) (n : ℕ)
    (hA : parseIpv4 sA = some a) (hN : parseU8 sN = some n) :
    (a.o4 ≤ n → parse_range (sA ++ '-' :: sN)
        = .ok (a, ⟨a.o1, a.o2, a.o3, n⟩))
    ∧ (n < a.o4 → parse_range (sA ++ '-' :: sN)
        = .error (endLtMsg ⟨a.o1, a.o2, a.o3, n⟩ a)) := by
  have hAchars := parseIpv4_chars sA a hA
  have hNchars := parseU8_chars sN n hN
  have hdashA : ('-' : Char) ∉ sA := by
    intro hm
    rcases hAchars '-' hm with h1 | h1
    · exact absurd h1 (by decide)
    · exact absurd h1 (by decide)
  have hdashN : ('-' : Char) ∉ sN := by
    intro hm
    rcases hNchars '-' hm with h1 | h1
    · exact absurd h1 (by decide)
    · exact absurd h1 (by decide)
  have hsplit : splitOn '-' (sA ++ '-' :: sN) = [sA, sN] := by
    rw [splitOn_append '-' sA sN hdashA, splitOn_of_not_mem '-' sN hdashN]
  have htrimA : trim sA = sA := by
    apply trim_eq_self
    intro x hx
    rcases hAchars x hx with h1 | h1
    · exact isDigit_not_ws x h1
    · rw [h1]; decide
  have htrimN : trim sN = sN := by
    apply trim_eq_self
    intro x hx
    rcases hNchars x hx with h1 | h1
    · exact isDigit_not_ws x h1
    · rw [h1]; decide
  have hipN : parseIpv4 sN = none := parseU8_not_ipv4 sN n hN
  have hmain : parse_range (sA ++ '-' :: sN)
      = if (⟨a.o1, a.o2, a.o3, n⟩ : Ipv4).toU32 < a.toU32
        then .error (endLtMsg ⟨a.o1, a.o2, a.o3, n⟩ a)
        else .ok (a, ⟨a.o1, a.o2, a.o3, n⟩) := by
    unfold parse_range
    rw [hsplit]
    simp only [htrimA, hA, htrimN, hipN, hN]
  have hcmp : ((⟨a.o1, a.o2, a.o3, n⟩ : Ipv4).toU32 < a.toU32) ↔ n < a.o4 := by
    simp only [Ipv4.toU32]
    omega
  constructor
  · intro hle
    rw [hmain, if_neg (fun hc => absurd (hcmp.mp hc) (by omega))]
  · intro hlt
    rw [hmain, if_pos (hcmp.mpr hlt)]

/-- C9 witness: `192.168.1.1-50` parses to the pair
`(192.168.1.1, 192.168.1.50)` and `10.0.0.10-5` is rejected (end below
start), exactly as the spec's examples require. -/
theorem c9_parse_octet_form_witness :
    parse_range ("192.168.1.1".toList ++ '-' :: "50".toList)
      = .ok (⟨192, 168, 1, 1⟩, ⟨192, 168, 1, 50⟩)
    ∧ parse_range ("10.0.0.10".toList ++ '-' :: "5".toList)
      = .error (endLtMsg ⟨10, 0, 0, 5⟩ ⟨10, 0, 0, 10⟩) := by
  constructor
  · exact (c9_parse_octet_form "192.168.1.1".toList "50".toList ⟨192, 168, 1, 1⟩ 50
      (by decide) (by decide)).1 (by decide)
  · exact (c9_parse_octet_form "10.0.0.10".toList "5".toList ⟨10, 0, 0, 10⟩ 5
      (by decide) (by decide)).2 (by decide)

/-! ## Correctness of the binary32 rounding model (for C4) -/

lemma two_zpow_pos (z : ℤ) : (0 : ℚ) < 2 ^ z := zpow_pos (by norm_num) z

lemma nat_pow_cast_zpow (k : ℕ) : ((2 ^ k : ℕ) : ℚ) = (2 : ℚ) ^ (k : ℤ) := by
  push_cast
  rw [zpow_natCast]

lemma lg2F_correct : ∀ fuel n : ℕ, 1 ≤ n → n ≤ fuel →
    2 ^ lg2F fuel n ≤ n ∧ n < 2 ^ (lg2F fuel n + 1)
  | 0, n => by intro h1 h2; exact absurd h2 (by omega)
  | fuel + 1, n => by
    intro h1 h2
    by_cases hn : 2 ≤ n
    · have hrec := lg2F_correct fuel (n / 2) (by omega) (by omega)
      obtain ⟨ha, hb⟩ := hrec
      simp only [lg2F, if_pos hn]
      constructor
      · rw [pow_succ]
        omega
      · rw [pow_succ] at hb
        rw [pow_succ, pow_succ]
        omega
    · simp only [lg2F, if_neg hn]
      exact ⟨by simpa using h1, by simpa using (by omega : n < 2)⟩

lemma natLg2_correct (n : ℕ) (h : 1 ≤ n) :
    2 ^ natLg2 n ≤ n ∧ n < 2 ^ (natLg2 n + 1) :=
  lg2F_correct n n h (le_refl n)

lemma floorLog2ND_correct (n d : ℕ) (hn : 1 ≤ n) (hd : 1 ≤ d) :
    (d : ℚ) * 2 ^ floorLog2ND n d ≤ n ∧ (n : ℚ) < d * 2 ^ (floorLog2ND n d + 1) := by
  obtain ⟨han, hbn⟩ := natLg2_correct n hn
  obtain ⟨had, hbd⟩ := natLg2_correct d hd
  set a := natLg2 n with ha
  set b := natLg2 d with hb
  have hdq : (0 : ℚ) < d := by positivity
  simp only [floorLog2ND, ← ha, ← hb]
  split_ifs with hba hcond hcond
  · -- b ≤ a, d * 2^(a-b) ≤ n : exponent is a - b ≥ 0
    constructor
    · rw [zpow_natCast]
      exact_mod_cast hcond
    · have hz : (((a - b : ℕ) : ℤ) + 1) = ((a - b + 1 : ℕ) : ℤ) := by push_cast; ring
      rw [hz, zpow_natCast]
      have hnat : n < d * 2 ^ (a - b + 1) := by
        have he : b + (a - b + 1) = a + 1 := by omega
        calc n < 2 ^ (a + 1) := hbn
          _ = 2 ^ b * 2 ^ (a - b + 1) := by rw [← pow_add, he]
          _ ≤ d * 2 ^ (a - b + 1) := Nat.mul_le_mul_right _ had
      exact_mod_cast hnat
  · -- b ≤ a, n < d * 2^(a-b) : exponent is (a - b) - 1
    constructor
    · have hlt : (d : ℚ) * 2 ^ (((a - b : ℕ) : ℤ) - 1) < 2 ^ (a : ℤ) := by
        have h1 : (d : ℚ) < 2 ^ ((b : ℤ) + 1) := by
          have : ((b : ℤ) + 1) = ((b + 1 : ℕ) : ℤ) := by push_cast; ring
          rw [this, zpow_natCast]
          exact_mod_cast hbd
        have h2 : (d : ℚ) * 2 ^ (((a - b : ℕ) : ℤ) - 1)
            < 2 ^ ((b : ℤ) + 1) * 2 ^ (((a - b : ℕ) : ℤ) - 1) :=
          mul_lt_mul_of_pos_right h1 (two_zpow_pos _)
        have h3 : (2 : ℚ) ^ ((b : ℤ) + 1) * 2 ^ (((a - b : ℕ) : ℤ) - 1) = 2 ^ (a : ℤ) := by
          rw [← zpow_add₀ (by norm_num : (2 : ℚ) ≠ 0)]
          congr 1
          omega
        rw [h3] at h2
        exact h2
      have h4 : (2 : ℚ) ^ (a : ℤ) ≤ n := by
        rw [zpow_natCast]
        exact_mod_cast han
      linarith
    · have hz : (((a - b : ℕ) : ℤ) - 1 + 1) = ((a - b : ℕ) : ℤ) := by ring
      rw [hz, zpow_natCast]
      exact_mod_cast Nat.lt_of_not_le hcond
  · -- a < b, d ≤ n * 2^(b-a) : exponent is -(b - a)
    constructor
    · rw [zpow_neg, ← div_eq_mul_inv, div_le_iff₀ (two_zpow_pos _), zpow_natCast]
      exact_mod_cast hcond
    · have h1 : (n : ℚ) < 2 ^ ((a : ℤ) + 1) := by
        have : ((a : ℤ) + 1) = ((a + 1 : ℕ) : ℤ) := by push_cast; ring
        rw [this, zpow_natCast]
        exact_mod_cast hbn
      have h2 : (2 : ℚ) ^ ((a : ℤ) + 1) ≤ (d : ℚ) * 2 ^ (-((b - a : ℕ) : ℤ) + 1) := by
        have h3 : (2 : ℚ) ^ ((b : ℤ)) * 2 ^ (-((b - a : ℕ) : ℤ) + 1) = 2 ^ ((a : ℤ) + 1) := by
          rw [← zpow_add₀ (by norm_num : (2 : ℚ) ≠ 0)]
          congr 1
          omega
        have h4 : (2 : ℚ) ^ ((b : ℤ)) ≤ d := by
          rw [zpow_natCast]
          exact_mod_cast had
        calc (2 : ℚ) ^ ((a : ℤ) + 1) = 2 ^ ((b : ℤ)) * 2 ^ (-((b - a : ℕ) : ℤ) + 1) := h3.symm
          _ ≤ (d : ℚ) * 2 ^ (-((b - a : ℕ) : ℤ) + 1) :=
            mul_le_mul_of_nonneg_right h4 (le_of_lt (two_zpow_pos _))
      linarith
  · -- a < b, n * 2^(b-a) < d : exponent is -(b - a) - 1
    constructor
    · have h1 : (d : ℚ) < 2 ^ ((b : ℤ) + 1) := by
        have : ((b : ℤ) + 1) = ((b + 1 : ℕ) : ℤ) := by push_cast; ring
        rw [this, zpow_natCast]
        exact_mod_cast hbd
      have h2 : (d : ℚ) * 2 ^ (-((b - a : ℕ) : ℤ) - 1) < 2 ^ ((b : ℤ) + 1) * 2 ^ (-((b - a : ℕ) : ℤ) - 1) :=
        mul_lt_mul_of_pos_right h1 (two_zpow_pos _)
      have h3 : (2 : ℚ) ^ ((b : ℤ) + 1) * 2 ^ (-((b - a : ℕ) : ℤ) - 1) = 2 ^ (a : ℤ) := by
        rw [← zpow_add₀ (by norm_num : (2 : ℚ) ≠ 0)]
        congr 1
        omega
      have h4 : (2 : ℚ) ^ (a : ℤ) ≤ n := by
        rw [zpow_natCast]
        exact_mod_cast han
      rw [h3] at h2
      linarith
    · have hz : (-((b - a : ℕ) : ℤ) - 1 + 1) = -((b - a : ℕ) : ℤ) := by ring
      rw [hz, zpow_neg, ← div_eq_mul_inv, lt_div_iff₀ (two_zpow_pos _), zpow_natCast]
      exact_mod_cast Nat.lt_of_not_le hcond

lemma nat_div_add_mod_q (n d : ℕ) (hd : 0 < d) :
    (n : ℚ) / d = ((n / d : ℕ) : ℚ) + ((n % d : ℕ) : ℚ) / d := by
  have h : (d : ℚ) * ((n / d : ℕ) : ℚ) + ((n % d : ℕ) : ℚ) = n := by
    exact_mod_cast congrArg (fun x : ℕ => (x : ℚ)) (Nat.div_add_mod n d)
  have hq : (0 : ℚ) < d := by positivity
  field_simp
  linarith

lemma frac_nonneg_lt_one (n d : ℕ) (hd : 0 < d) :
    (0 : ℚ) ≤ ((n % d : ℕ) : ℚ) / d ∧ ((n % d : ℕ) : ℚ) / d < 1 := by
  have hq : (0 : ℚ) < d := by positivity
  constructor
  · positivity
  · rw [div_lt_one hq]
    exact_mod_cast Nat.mod_lt n hd

lemma half_lt_iff (n d : ℕ) (hd : 0 < d) :
    2 * (n % d) < d ↔ ((n % d : ℕ) : ℚ) / d < 1 / 2 := by
  have hq : (0 : ℚ) < d := by positivity
  rw [div_lt_iff₀ hq]
  constructor
  · intro h
    have : ((2 * (n % d) : ℕ) : ℚ) < d := by exact_mod_cast h
    push_cast at this
    linarith
  · intro h
    have : ((2 * (n % d) : ℕ) : ℚ) < d := by push_cast; linarith
    exact_mod_cast this

lemma lt_half_iff (n d : ℕ) (hd : 0 < d) :
    d < 2 * (n % d) ↔ 1 / 2 < ((n % d : ℕ) : ℚ) / d := by
  have hq : (0 : ℚ) < d := by positivity
  rw [lt_div_iff₀ hq]
  constructor
  · intro h
    have : (d : ℚ) < ((2 * (n % d) : ℕ) : ℚ) := by exact_mod_cast h
    push_cast at this
    linarith
  · intro h
    have : (d : ℚ) < ((2 * (n % d) : ℕ) : ℚ) := by push_cast; linarith
    exact_mod_cast this

lemma rndEvenND_bounds (n d : ℕ) (hd : 0 < d) :
    (n : ℚ) / d - 1 / 2 ≤ (rndEvenND n d : ℚ)
      ∧ (rndEvenND n d : ℚ) ≤ (n : ℚ) / d + 1 / 2 := by
  have hsplit := nat_div_add_mod_q n d hd
  obtain ⟨hx0, hx1⟩ := frac_nonneg_lt_one n d hd
  simp only [rndEvenND]
  split_ifs with h1 h2 h3
  · have hx := (half_lt_iff n d hd).mp h1
    rw [hsplit]
    constructor <;> [linarith; linarith]
  · have hx := (lt_half_iff n d hd).mp h2
    rw [hsplit]
    push_cast
    constructor <;> [linarith; linarith]
  · have hx : ((n % d : ℕ) : ℚ) / d = 1 / 2 := by
      have ha := (half_lt_iff n d hd).not.mp h1
      have hb := (lt_half_iff n d hd).not.mp h2
      push_neg at ha hb
      linarith
    rw [hsplit, hx]
    constructor <;> [linarith; linarith]
  · have hx : ((n % d : ℕ) : ℚ) / d = 1 / 2 := by
      have ha := (half_lt_iff n d hd).not.mp h1
      have hb := (lt_half_iff n d hd).not.mp h2
      push_neg at ha hb
      linarith
    rw [hsplit, hx]
    push_cast
    constructor <;> [linarith; linarith]

lemma rndEvenND_floor_bounds (n d : ℕ) :
    n / d ≤ rndEvenND n d ∧ rndEvenND n d ≤ n / d + 1 := by
  simp only [rndEvenND]
  split_ifs <;> omega

lemma rndEvenND_tie (n d : ℕ) (h : 2 * (n % d) = d) :
    rndEvenND n d = if n / d % 2 = 0 then n / d else n / d + 1 := by
  simp only [rndEvenND]
  rw [if_neg (by omega), if_neg (by omega)]

lemma rndEvenND_mono (n d n2 d2 : ℕ) (hd : 0 < d) (hd2 : 0 < d2)
    (h : (n : ℚ) / d ≤ (n2 : ℚ) / d2) : rndEvenND n d ≤ rndEvenND n2 d2 := by
  have hfloor : n / d ≤ n2 / d2 := by
    have e1 : (⌊(n : ℚ) / (d : ℚ)⌋₊ : ℕ) = n / d := by
      rw [Nat.floor_div_nat]
      simp
    have e2 : (⌊(n2 : ℚ) / (d2 : ℚ)⌋₊ : ℕ) = n2 / d2 := by
      rw [Nat.floor_div_nat]
      simp
    rw [← e1, ← e2]
    exact Nat.floor_mono h
  by_contra hgt
  push_neg at hgt
  -- R2 < R forces both values to be exact half ties
  obtain ⟨hlo1, hhi1⟩ := rndEvenND_bounds n d hd
  obtain ⟨hlo2, hhi2⟩ := rndEvenND_bounds n2 d2 hd2
  have hstep : ((rndEvenND n2 d2 : ℕ) : ℚ) + 1 ≤ (rndEvenND n d : ℕ) := by
    exact_mod_cast hgt
  have heq1 : (n : ℚ) / d = (rndEvenND n d : ℚ) - 1 / 2 := by linarith
  have heq2 : (n2 : ℚ) / d2 = (rndEvenND n2 d2 : ℚ) + 1 / 2 := by linarith
  -- identify floors and fractional parts
  have hs1 := nat_div_add_mod_q n d hd
  have hs2 := nat_div_add_mod_q n2 d2 hd2
  obtain ⟨ha1, hb1⟩ := frac_nonneg_lt_one n d hd
  obtain ⟨ha2, hb2⟩ := frac_nonneg_lt_one n2 d2 hd2
  have hfr1 : ((n % d : ℕ) : ℚ) / d = 1 / 2 ∧ (n / d : ℕ) + 1 = rndEvenND n d := by
    have hk : ((rndEvenND n d : ℕ) : ℚ) - 1 - ((n / d : ℕ) : ℚ)
        = ((n % d : ℕ) : ℚ) / d - 1 / 2 := by
      linarith
    have hc1 : ((n / d : ℕ) : ℚ) < ((rndEvenND n d : ℕ) : ℚ) := by linarith
    have hc2 : ((rndEvenND n d : ℕ) : ℚ) < ((n / d : ℕ) : ℚ) + 2 := by linarith
    have hn1 : n / d < rndEvenND n d := by exact_mod_cast hc1
    have hn2 : rndEvenND n d < n / d + 2 := by exact_mod_cast hc2
    have hv : (n / d : ℕ) + 1 = rndEvenND n d := by omega
    refine ⟨?_, hv⟩
    have : ((rndEvenND n d : ℕ) : ℚ) = ((n / d : ℕ) : ℚ) + 1 := by
      exact_mod_cast hv.symm
    linarith
  have hfr2 : ((n2 % d2 : ℕ) : ℚ) / d2 = 1 / 2 ∧ (n2 / d2 : ℕ) = rndEvenND n2 d2 := by
    have hk : ((rndEvenND n2 d2 : ℕ) : ℚ) - ((n2 / d2 : ℕ) : ℚ)
        = ((n2 % d2 : ℕ) : ℚ) / d2 - 1 / 2 := by
      linarith
    have hc1 : ((n2 / d2 : ℕ) : ℚ) < ((rndEvenND n2 d2 : ℕ) : ℚ) + 1 := by linarith
    have hc2 : ((rndEvenND n2 d2 : ℕ) : ℚ) < ((n2 / d2 : ℕ) : ℚ) + 1 := by linarith
    have hn1 : n2 / d2 < rndEvenND n2 d2 + 1 := by exact_mod_cast hc1
    have hn2 : rndEvenND n2 d2 < n2 / d2 + 1 := by exact_mod_cast hc2
    have hv : (n2 / d2 : ℕ) = rndEvenND n2 d2 := by omega
    refine ⟨?_, hv⟩
    have : ((rndEvenND n2 d2 : ℕ) : ℚ) = ((n2 / d2 : ℕ) : ℚ) := by exact_mod_cast hv.symm
    linarith
  -- both are ties, so the parity rule applies on equal floors
  have htie1 : 2 * (n % d) = d := by
    have := (half_lt_iff n d hd).not
    have h2 := (lt_half_iff n d hd).not
    have hx := hfr1.1
    by_contra hne
    rcases Nat.lt_or_ge (2 * (n % d)) d with hlt | hge
    · have := (half_lt_iff n d hd).mp hlt; linarith
    · have hgt2 : d < 2 * (n % d) := by omega
      have := (lt_half_iff n d hd).mp hgt2; linarith
  have htie2 : 2 * (n2 % d2) = d2 := by
    have hx := hfr2.1
    by_contra hne
    rcases Nat.lt_or_ge (2 * (n2 % d2)) d2 with hlt | hge
    · have := (half_lt_iff n2 d2 hd2).mp hlt; linarith
    · have hgt2 : d2 < 2 * (n2 % d2) := by omega
      have := (lt_half_iff n2 d2 hd2).mp hgt2; linarith
  -- equal quotients
  have hqeq : n / d = n2 / d2 := by
    have hup : (n : ℚ) / d = (n2 : ℚ) / d2 := by
      have hle2 : (n2 : ℚ) / d2 ≤ (n : ℚ) / d := by
        rw [heq1, heq2]
        have : ((rndEvenND n2 d2 : ℕ) : ℚ) + 1 ≤ ((rndEvenND n d : ℕ) : ℚ) := hstep
        linarith
      linarith
    have h1 := hs1
    have h2 := hs2
    rw [hup, h2, hfr2.1] at h1
    rw [hfr1.1] at h1
    have : ((n / d : ℕ) : ℚ) = ((n2 / d2 : ℕ) : ℚ) := by linarith
    exact_mod_cast this
  have hr1 := rndEvenND_tie n d htie1
  have hr2 := rndEvenND_tie n2 d2 htie2
  rw [hqeq] at hr1
  split_ifs at hr1 hr2 <;> omega

lemma roundF32_spec (n d : ℕ) (hn : 1 ≤ n) (hd : 1 ≤ d) :
    ∃ N D : ℕ, 0 < D ∧
      (N : ℚ) / D = (n : ℚ) / d * 2 ^ ((23 : ℤ) - floorLog2ND n d) ∧
      dyVal (roundF32 n d) = (rndEvenND N D : ℚ) * 2 ^ (floorLog2ND n d - 23) := by
  set e := floorLog2ND n d with he
  have hn0 : ¬(n = 0) := by omega
  by_cases h23 : e ≤ 23
  · refine ⟨n * 2 ^ (23 - e).toNat, d, hd, ?_, ?_⟩
    · have hk : (((23 - e).toNat : ℤ)) = 23 - e := Int.toNat_of_nonneg (by omega)
      have h1 : ((n * 2 ^ (23 - e).toNat : ℕ) : ℚ)
          = (n : ℚ) * 2 ^ (((23 - e).toNat : ℤ)) := by
        push_cast
        rw [zpow_natCast]
      rw [h1, hk]
      ring
    · simp only [roundF32, if_neg hn0, ← he, if_pos h23, dyVal]
      rw [div_eq_mul_inv, ← zpow_natCast (2 : ℚ) ((23 - e).toNat), ← zpow_neg]
      have hexp : -(((23 - e).toNat : ℤ)) = e - 23 := by omega
      rw [hexp]
  · refine ⟨n, d * 2 ^ (e - 23).toNat, by positivity, ?_, ?_⟩
    · have hk : (((e - 23).toNat : ℤ)) = e - 23 := Int.toNat_of_nonneg (by omega)
      have h1 : ((d * 2 ^ (e - 23).toNat : ℕ) : ℚ)
          = (d : ℚ) * 2 ^ (((e - 23).toNat : ℤ)) := by
        push_cast
        rw [zpow_natCast]
      rw [h1, hk]
      have hdq : (0 : ℚ) < d := by positivity
      have hpq := two_zpow_pos (e - 23)
      rw [div_mul_eq_div_div]
      rw [div_eq_iff hpq.ne']
      have hzz : (2 : ℚ) ^ ((23 : ℤ) - e) * (2 : ℚ) ^ (e - 23) = 1 := by
        rw [← zpow_add₀ (by norm_num : (2 : ℚ) ≠ 0)]
        norm_num
      calc (n : ℚ) / d = (n : ℚ) / d * (2 ^ ((23 : ℤ) - e) * 2 ^ (e - 23)) := by
            rw [hzz, mul_one]
        _ = (n : ℚ) / d * 2 ^ ((23 : ℤ) - e) * 2 ^ (e - 23) := by ring
    · simp only [roundF32, if_neg hn0, ← he, if_neg h23, dyVal]
      push_cast
      rw [pow_zero, div_one, ← zpow_natCast (2 : ℚ) ((e - 23).toNat)]
      have hexp : (((e - 23).toNat : ℤ)) = e - 23 := by omega
      rw [hexp]

lemma roundF32_bounds (n d : ℕ) (hn : 1 ≤ n) (hd : 1 ≤ d) :
    (2 : ℚ) ^ floorLog2ND n d ≤ dyVal (roundF32 n d)
      ∧ dyVal (roundF32 n d) ≤ 2 ^ (floorLog2ND n d + 1) := by
  obtain ⟨N, D, hD, hND, hval⟩ := roundF32_spec n d hn hd
  obtain ⟨hc1, hc2⟩ := floorLog2ND_correct n d hn hd
  set e := floorLog2ND n d with he
  have hdq : (0 : ℚ) < d := by positivity
  have hq1 : (2 : ℚ) ^ e ≤ (n : ℚ) / d := by
    rw [le_div_iff₀ hdq]
    linarith
  have hq2 : (n : ℚ) / d < 2 ^ (e + 1) := by
    rw [div_lt_iff₀ hdq]
    linarith
  have hs1 : (2 : ℚ) ^ (23 : ℤ) ≤ (N : ℚ) / D := by
    rw [hND]
    calc (2 : ℚ) ^ (23 : ℤ) = 2 ^ e * 2 ^ ((23 : ℤ) - e) := by
          rw [← zpow_add₀ (by norm_num : (2 : ℚ) ≠ 0)]
          congr 1
          ring
      _ ≤ (n : ℚ) / d * 2 ^ ((23 : ℤ) - e) :=
          mul_le_mul_of_nonneg_right hq1 (two_zpow_pos _).le
  have hs2 : (N : ℚ) / D < 2 ^ (24 : ℤ) := by
    rw [hND]
    calc (n : ℚ) / d * 2 ^ ((23 : ℤ) - e) < 2 ^ (e + 1) * 2 ^ ((23 : ℤ) - e) :=
          mul_lt_mul_of_pos_right hq2 (two_zpow_pos _)
      _ = 2 ^ (24 : ℤ) := by
          rw [← zpow_add₀ (by norm_num : (2 : ℚ) ≠ 0)]
          congr 1
          ring
  obtain ⟨hr1, hr2⟩ := rndEvenND_bounds N D hD
  have h23v : (2 : ℚ) ^ (23 : ℤ) = 8388608 := by norm_num
  have h24v : (2 : ℚ) ^ (24 : ℤ) = 16777216 := by norm_num
  rw [h23v] at hs1
  rw [h24v] at hs2
  have hrlN : 8388608 ≤ rndEvenND N D := by
    have hq : (8388607 : ℚ) < (rndEvenND N D : ℚ) := by linarith
    have : (8388607 : ℕ) < rndEvenND N D := by exact_mod_cast hq
    omega
  have hruN : rndEvenND N D ≤ 16777216 := by
    have hq : (rndEvenND N D : ℚ) < (16777217 : ℚ) := by linarith
    have : rndEvenND N D < (16777217 : ℕ) := by exact_mod_cast hq
    omega
  have hrl : (8388608 : ℚ) ≤ (rndEvenND N D : ℚ) := by exact_mod_cast hrlN
  have hru : (rndEvenND N D : ℚ) ≤ (16777216 : ℚ) := by exact_mod_cast hruN
  constructor
  · calc (2 : ℚ) ^ e = 8388608 * 2 ^ (e - 23) := by
          rw [← h23v, ← zpow_add₀ (by norm_num : (2 : ℚ) ≠ 0)]
          congr 1
          ring
      _ ≤ (rndEvenND N D : ℚ) * 2 ^ (e - 23) :=
          mul_le_mul_of_nonneg_right hrl (two_zpow_pos _).le
      _ = dyVal (roundF32 n d) := hval.symm
  · calc dyVal (roundF32 n d) = (rndEvenND N D : ℚ) * 2 ^ (e - 23) := hval
      _ ≤ 16777216 * 2 ^ (e - 23) :=
          mul_le_mul_of_nonneg_right hru (two_zpow_pos _).le
      _ = 2 ^ (e + 1) := by
          rw [← h24v, ← zpow_add₀ (by norm_num : (2 : ℚ) ≠ 0)]
          congr 1
          ring

lemma dyVal_nonneg (p : ℕ × ℕ) : 0 ≤ dyVal p := by
  unfold dyVal
  positivity

lemma roundF32_fst_pos (n d : ℕ) (hn : 1 ≤ n) (hd : 1 ≤ d) : 1 ≤ (roundF32 n d).1 := by
  by_contra hcon
  push_neg at hcon
  have h0 : (roundF32 n d).1 = 0 := by omega
  have hb := (roundF32_bounds n d hn hd).1
  rw [dyVal, h0] at hb
  simp at hb
  linarith [two_zpow_pos (floorLog2ND n d)]

lemma roundF32_mono (n d n2 d2 : ℕ) (hd : 1 ≤ d) (hd2 : 1 ≤ d2)
    (h : (n : ℚ) / d ≤ (n2 : ℚ) / d2) :
    dyVal (roundF32 n d) ≤ dyVal (roundF32 n2 d2) := by
  by_cases hn : n = 0
  · have h0 : roundF32 n d = (0, 0) := by rw [hn]; rfl
    rw [h0]
    have : dyVal (0, 0) = 0 := by simp [dyVal]
    rw [this]
    exact dyVal_nonneg _
  · have hn1 : 1 ≤ n := by omega
    have hn2 : 1 ≤ n2 := by
      by_contra h2
      push_neg at h2
      have hz : n2 = 0 := by omega
      rw [hz] at h
      simp at h
      have hpos : (0 : ℚ) < (n : ℚ) / d := by positivity
      linarith
    obtain ⟨hc1, hc2⟩ := floorLog2ND_correct n d hn1 hd
    obtain ⟨hc1', hc2'⟩ := floorLog2ND_correct n2 d2 hn2 hd2
    have hdq : (0 : ℚ) < d := by positivity
    have hdq2 : (0 : ℚ) < d2 := by positivity
    have hq1 : (2 : ℚ) ^ floorLog2ND n d ≤ (n : ℚ) / d := by
      rw [le_div_iff₀ hdq]
      linarith
    have hq2' : (n2 : ℚ) / d2 < 2 ^ (floorLog2ND n2 d2 + 1) := by
      rw [div_lt_iff₀ hdq2]
      linarith
    have hee : floorLog2ND n d ≤ floorLog2ND n2 d2 := by
      by_contra hlt
      push_neg at hlt
      have hchain : (2 : ℚ) ^ floorLog2ND n d < 2 ^ floorLog2ND n d := by
        calc (2 : ℚ) ^ floorLog2ND n d ≤ (n : ℚ) / d := hq1
          _ ≤ (n2 : ℚ) / d2 := h
          _ < 2 ^ (floorLog2ND n2 d2 + 1) := hq2'
          _ ≤ 2 ^ floorLog2ND n d :=
              zpow_le_zpow_right₀ (by norm_num) (by omega)
      exact absurd hchain (lt_irrefl _)
    rcases eq_or_lt_of_le hee with heq | hlt
    · obtain ⟨N, D, hD, hND, hval⟩ := roundF32_spec n d hn1 hd
      obtain ⟨N2, D2, hD2, hND2, hval2⟩ := roundF32_spec n2 d2 hn2 hd2
      rw [hval, hval2, ← heq]
      apply mul_le_mul_of_nonneg_right _ (two_zpow_pos _).le
      have hradd : (N : ℚ) / D ≤ (N2 : ℚ) / D2 := by
        rw [hND, hND2, ← heq]
        exact mul_le_mul_of_nonneg_right h (two_zpow_pos _).le
      exact_mod_cast rndEvenND_mono N D N2 D2 hD hD2 hradd
    · have hb1 := (roundF32_bounds n d hn1 hd).2
      have hb2 := (roundF32_bounds n2 d2 hn2 hd2).1
      calc dyVal (roundF32 n d) ≤ 2 ^ (floorLog2ND n d + 1) := hb1
        _ ≤ 2 ^ floorLog2ND n2 d2 := zpow_le_zpow_right₀ (by norm_num) (by omega)
        _ ≤ dyVal (roundF32 n2 d2) := hb2

lemma quot_frac (p q : ℕ × ℕ) (hq : 1 ≤ q.1) :
    ((p.1 * 2 ^ q.2 : ℕ) : ℚ) / ((q.1 * 2 ^ p.2 : ℕ) : ℚ) = dyVal p / dyVal q := by
  unfold dyVal
  have hq1 : (q.1 : ℚ) ≠ 0 := by
    have : (0 : ℚ) < q.1 := by exact_mod_cast hq
    linarith
  have h2p : ((2 : ℚ) ^ p.2) ≠ 0 := by positivity
  have h2q : ((2 : ℚ) ^ q.2) ≠ 0 := by positivity
  rw [div_div_div_comm]
  push_cast
  field_simp

lemma mul100_frac (p : ℕ × ℕ) :
    ((p.1 * 100 : ℕ) : ℚ) / ((2 ^ p.2 : ℕ) : ℚ) = 100 * dyVal p := by
  unfold dyVal
  push_cast
  ring

lemma trunc_mono (p q : ℕ × ℕ) (h : dyVal p ≤ dyVal q) :
    p.1 / 2 ^ p.2 ≤ q.1 / 2 ^ q.2 := by
  have e1 : ∀ r : ℕ × ℕ, ⌊dyVal r⌋₊ = r.1 / 2 ^ r.2 := by
    intro r
    unfold dyVal
    rw [show ((2 : ℚ) ^ r.2) = ((2 ^ r.2 : ℕ) : ℚ) by push_cast; ring]
    rw [Nat.floor_div_nat]
    simp
  rw [← e1 p, ← e1 q]
  exact Nat.floor_mono h

lemma progressVal_mono (c c2 t : ℕ) (hc : 1 ≤ c) (hcc : c ≤ c2) (ht : 1 ≤ t) :
    progressVal c t ≤ progressVal c2 t := by
  have hone : (1 : ℕ) ≤ 1 := le_refl 1
  have hcf1 := roundF32_fst_pos c 1 hc hone
  have hcf21 := roundF32_fst_pos c2 1 (by omega) hone
  have htf1 := roundF32_fst_pos t 1 ht hone
  have h2pos : ∀ k : ℕ, 0 < 2 ^ k := fun k => pow_pos (by norm_num) k
  have hA : dyVal (roundF32 c 1) ≤ dyVal (roundF32 c2 1) := by
    apply roundF32_mono c 1 c2 1 hone hone
    simp only [Nat.cast_one, div_one]
    exact_mod_cast hcc
  have htfpos : 0 < dyVal (roundF32 t 1) :=
    lt_of_lt_of_le (two_zpow_pos _) (roundF32_bounds t 1 ht hone).1
  have hB : dyVal (roundF32 ((roundF32 c 1).1 * 2 ^ (roundF32 t 1).2)
        ((roundF32 t 1).1 * 2 ^ (roundF32 c 1).2))
      ≤ dyVal (roundF32 ((roundF32 c2 1).1 * 2 ^ (roundF32 t 1).2)
        ((roundF32 t 1).1 * 2 ^ (roundF32 c2 1).2)) := by
    apply roundF32_mono
    · have := Nat.mul_pos htf1 (h2pos (roundF32 c 1).2)
      omega
    · have := Nat.mul_pos htf1 (h2pos (roundF32 c2 1).2)
      omega
    · rw [quot_frac (roundF32 c 1) (roundF32 t 1) htf1,
        quot_frac (roundF32 c2 1) (roundF32 t 1) htf1]
      gcongr
  have hC : dyVal (roundF32 ((roundF32 ((roundF32 c 1).1 * 2 ^ (roundF32 t 1).2)
        ((roundF32 t 1).1 * 2 ^ (roundF32 c 1).2)).1 * 100)
        (2 ^ (roundF32 ((roundF32 c 1).1 * 2 ^ (roundF32 t 1).2)
          ((roundF32 t 1).1 * 2 ^ (roundF32 c 1).2)).2))
      ≤ dyVal (roundF32 ((roundF32 ((roundF32 c2 1).1 * 2 ^ (roundF32 t 1).2)
        ((roundF32 t 1).1 * 2 ^ (roundF32 c2 1).2)).1 * 100)
        (2 ^ (roundF32 ((roundF32 c2 1).1 * 2 ^ (roundF32 t 1).2)
          ((roundF32 t 1).1 * 2 ^ (roundF32 c2 1).2)).2)) := by
    apply roundF32_mono
    · have := h2pos (roundF32 ((roundF32 c 1).1 * 2 ^ (roundF32 t 1).2)
        ((roundF32 t 1).1 * 2 ^ (roundF32 c 1).2)).2
      omega
    · have := h2pos (roundF32 ((roundF32 c2 1).1 * 2 ^ (roundF32 t 1).2)
        ((roundF32 t 1).1 * 2 ^ (roundF32 c2 1).2)).2
      omega
    · rw [mul100_frac, mul100_frac]
      linarith
  simp only [progressVal, if_neg (by omega : ¬t = 0)]
  exact min_le_min (trunc_mono _ _ hC) (le_refl 255)

lemma roundF32_self (m : ℕ) (hm : 1 ≤ m) : roundF32 m m = (2 ^ 23, 23) := by
  have hfl : floorLog2ND m m = 0 := by
    simp only [floorLog2ND]
    rw [if_pos (le_refl _), Nat.sub_self, pow_zero, mul_one, if_pos (le_refl m)]
    rfl
  have hm0 : ¬(m = 0) := by omega
  simp only [roundF32, if_neg hm0, hfl]
  rw [if_pos (by norm_num : (0 : ℤ) ≤ 23)]
  have hto : ((23 : ℤ) - 0).toNat = 23 := by decide
  rw [hto]
  have hrnd : rndEvenND (m * 2 ^ 23) m = 2 ^ 23 := by
    simp only [rndEvenND]
    rw [Nat.mul_div_cancel_left _ (by omega : 0 < m), Nat.mul_mod_right]
    rw [if_pos (by omega : 2 * 0 < m)]
  rw [hrnd]

lemma progressVal_total (t : ℕ) (ht : 1 ≤ t) : progressVal t t = 100 := by
  have htf1 := roundF32_fst_pos t 1 ht (le_refl 1)
  have h2 : 0 < 2 ^ (roundF32 t 1).2 := pow_pos (by norm_num) _
  have hprod : 1 ≤ (roundF32 t 1).1 * 2 ^ (roundF32 t 1).2 := by
    have := Nat.mul_pos htf1 h2
    omega
  simp only [progressVal, if_neg (by omega : ¬t = 0)]
  rw [roundF32_self ((roundF32 t 1).1 * 2 ^ (roundF32 t 1).2) hprod]
  decide

lemma scan_range_filterMap_progressOf (net : NetworkProvider) (s e : ℕ)
    (cancelAfter : Option ℕ) (order : List ℕ) (h : s ≤ e) :
    (scan_range net s e cancelAfter order).filterMap progressOf
      = (List.range order.length).map
          (fun j => progressVal ((j + 1) % U32MOD) ((e - s + 1) % U32MOD)) := by
  rw [scan_range_eq net s e cancelAfter order h, List.filterMap_append,
    joinTrace_filterMap_progressOf]
  have hz : ∀ j : ℕ, 0 + j + 1 = j + 1 := fun j => by omega
  simp only [hz]
  have hterm : ([if finalCancelled (e - s + 1) cancelAfter then BridgeMessage.scanCancelled
      else BridgeMessage.scanComplete].filterMap progressOf) = [] := by
    split <;> rfl
  rw [hterm, List.append_nil]

/-- C4 (amended): every `Progress` event carries the value of the
single-precision computation `(completed as f32 / total_ips as f32 * 100.0)
as u8` — modelled exactly by `progressVal` — where `total_ips = end − start
+ 1` and `completed` are `u32` values that wrap at `2^32` (the full-range
scan wraps `total_ips` to 0, and its Progress payloads are 255, …, 255, 0:
division by zero gives infinity, saturated to 255, and the wrapped
`completed = 0` gives NaN, cast to 0).  For every range smaller than the
full address space the emitted sequence is monotone non-decreasing and the
last completion yields exactly 100.  (The original claim's exact-integer
`floor(completed/total·100)`, and its "100 only at the last completion",
fail for totals above 2^24 — see the counterexample — because the
computation rounds in binary32.) -/
theorem c4_progress_f32 (net : NetworkProvider) (s e : ℕ) (order : List ℕ)
    (h : s ≤ e) (hord : order.Perm (admittedIps s (e - s + 1) none)) :
    (scan_range net s e none order).filterMap progressOf
      = (List.range (e - s + 1)).map
          (fun j => progressVal ((j + 1) % U32MOD) ((e - s + 1) % U32MOD))
    ∧ (e - s + 1 < U32MOD →
        (scan_range net s e none order).filterMap progressOf
          = (List.range (e - s + 1)).map (fun j => progressVal (j + 1) (e - s + 1))
        ∧ (∀ c c2 : ℕ, 1 ≤ c → c ≤ c2 →
            progressVal c (e - s + 1) ≤ progressVal c2 (e - s + 1))
        ∧ progressVal (e - s + 1) (e - s + 1) = 100)
    ∧ progressVal 0 0 = 0 ∧ (∀ c : ℕ, 1 ≤ c → progressVal c 0 = 255) := by
  have hlen : order.length = e - s + 1 := by
    have hl := hord.length_eq
    rwa [admittedIps_none_length] at hl
  have hA : (scan_range net s e none order).filterMap progressOf
      = (List.range (e - s + 1)).map
          (fun j => progressVal ((j + 1) % U32MOD) ((e - s + 1) % U32MOD)) := by
    rw [scan_range_filterMap_progressOf net s e none order h, hlen]
  refine ⟨hA, ?_, ?_, ?_⟩
  · intro hlt
    refine ⟨?_, ?_, ?_⟩
    · rw [hA]
      apply List.map_congr_left
      intro j hj
      rw [List.mem_range] at hj
      rw [Nat.mod_eq_of_lt (by omega), Nat.mod_eq_of_lt hlt]
    · intro c c2 hc hcc
      exact progressVal_mono c c2 (e - s + 1) hc hcc (by omega)
    · exact progressVal_total (e - s + 1) (by omega)
  · decide
  · intro c hc
    have hc0 : ¬c = 0 := by omega
    simp [progressVal, hc0]

/-- C4 counterexample: scanning the 2^24 + 1 addresses 0 … 2^24, the
16777216-th `Progress` event — not the last, since there are 16777217 —
carries the value 100, while the exact-integer formula gives
`⌊16777216 · 100 / 16777217⌋ = 99`: the code's binary32 arithmetic
contradicts both "equals floor(completed/total·100) over exact integers"
and "100 is emitted only at the last completion". -/
theorem c4_counterexample :
    ((scan_range net0 0 16777216 none (admittedIps 0 16777217 none)).filterMap
        progressOf).length = 16777217
    ∧ ((scan_range net0 0 16777216 none (admittedIps 0 16777217 none)).filterMap
        progressOf)[16777215]? = some 100
    ∧ 16777216 * 100 / 16777217 = 99 := by
  have hfm := scan_range_filterMap_progressOf net0 0 16777216 none
    (admittedIps 0 16777217 none) (by omega)
  rw [admittedIps_none_length] at hfm
  refine ⟨?_, ?_, by decide⟩
  · rw [hfm]
    simp
  · rw [hfm, List.getElem?_map, List.getElem?_range (by norm_num : 16777215 < 16777217)]
    decide

/-- C4 witness: for a concrete three-address scan the progress sequence is
the three binary32 values (33, 66, 100) and the final one is exactly 100. -/
theorem c4_progress_f32_witness :
    (scan_range net0 1 3 none (admittedIps 1 3 none)).filterMap progressOf
      = [progressVal 1 3, progressVal 2 3, progressVal 3 3]
    ∧ progressVal 3 3 = 100
    ∧ progressVal 1 3 = 33 ∧ progressVal 2 3 = 66 := by
  have hc := c4_progress_f32 net0 1 3 (admittedIps 1 3 none) (by decide) (List.Perm.refl _)
  obtain ⟨hB1, hB2, hB3⟩ := hc.2.1 (by decide)
  exact ⟨by rw [hB1]; rfl, hB3, by decide, by decide⟩
